import Mathlib

/-!
Shallow embedding of the record-matching and conflict-resolution engine of
the ib-database-sync repository.

Two revisions of the member model live in the repository:
* `records.py` — the newer `Member`/`HashFriendlyMember` with an
  `_original_dict` dirtiness map and `get_clean` normalization
  (embedded in namespace `Rec` below);
* `ib_database_sync.py` — a self-contained revision with its own
  `Member`/`HashFriendlyMember` (raw-valued `hash_with`, a plain `dirty`
  flag), the `MissingFieldResolver`, `hash_members`,
  `find_duplicates_within`, `find_duplicates_across` and
  `resolve_merge_conflicts` (embedded in namespace `IBS` below).

Python field values in this code are `None`, strings, or other scalars
(e.g. integers used as timestamps in test.py); `Value` models them.
-/

namespace IBSync

/-- The seven fields a `Member.__init__` stores (both revisions). -/
inductive Field where
  | first_name
  | last_name
  | email_address
  | zip_code
  | unique_id
  | last_edit
  | source_name
deriving DecidableEq, Repr

/-- A Python field value: `None`, a string, or a non-string scalar. -/
inductive Value where
  | vnone
  | vstr (s : String)
  | vint (n : Int)
deriving DecidableEq, Repr

/-- Lexicographic comparison of character lists by code point — the
order Python applies to strings. -/
def charListLt : List Char → List Char → Bool
  | _, [] => false
  | [], _ :: _ => true
  | a :: as, b :: bs =>
      if a.toNat < b.toNat then true
      else if b.toNat < a.toNat then false
      else charListLt as bs

/-- Python `<` on strings. -/
def strLt (a b : String) : Bool :=
  charListLt a.data b.data

/-- Python 2's `<` on the raw values stored in member fields:
`None` sorts below everything, numbers below strings (CPython 2 orders
mixed types by type name), strings lexicographically. -/
def Value.lt : Value → Value → Bool
  | .vnone, .vnone => false
  | .vnone, _ => true
  | .vint _, .vnone => false
  | .vint a, .vint b => decide (a < b)
  | .vint _, .vstr _ => true
  | .vstr _, .vnone => false
  | .vstr _, .vint _ => false
  | .vstr a, .vstr b => strLt a b

/-- Python `str.lower()`: lower-case every character (computable by the
kernel, unlike `String.toLower`). -/
def pyLower (s : String) : String :=
  String.mk (s.data.map Char.toLower)

/-- Python `str.strip()`: drop leading and trailing whitespace. -/
def pyStrip (s : String) : String :=
  String.mk (((s.data.dropWhile Char.isWhitespace).reverse.dropWhile
    Char.isWhitespace).reverse)

/-- `self.equality_fields` as set in both `HashFriendlyMember.__init__`s:
`['first_name', 'last_name', 'email_address', 'zip_code']`. -/
def equality_fields : List Field :=
  [.first_name, .last_name, .email_address, .zip_code]

/-- The sort order `__lt__` uses in both revisions: `equality_fields`
sorted by the index in `['last_name', 'first_name', 'email_address',
'zip_code']`. -/
def sort_order_fields : List Field :=
  [.last_name, .first_name, .email_address, .zip_code]

namespace Rec

/-- `records.py Member`: four identity fields, three metadata fields, a
`_dirty` flag and `_original_dict` (which field changed, keyed by field
name, holding the value the field had just before the change). -/
structure Member where
  first_name : Value
  last_name : Value
  email_address : Value
  zip_code : Value
  unique_id : Value
  last_edit : Value
  source_name : Value
  dirty : Bool
  original_dict : List (Field × Value)
deriving DecidableEq, Repr

/-- `Member.__init__`: stores the seven given values, `_dirty = False`,
`_original_dict = {}`. -/
def mkMember (first_name last_name email_address zip_code
    last_edit source_name unique_id : Value) : Member :=
  { first_name := first_name
    last_name := last_name
    email_address := email_address
    zip_code := zip_code
    unique_id := unique_id
    last_edit := last_edit
    source_name := source_name
    dirty := false
    original_dict := [] }

/-- `Member.get`: reads the stored slot `self.__dict__["_" + field]`. -/
def Member.get (m : Member) : Field → Value
  | .first_name => m.first_name
  | .last_name => m.last_name
  | .email_address => m.email_address
  | .zip_code => m.zip_code
  | .unique_id => m.unique_id
  | .last_edit => m.last_edit
  | .source_name => m.source_name

/-- The raw slot write `self.__dict__["_" + field] = new_value`. -/
def Member.setField (m : Member) (f : Field) (v : Value) : Member :=
  match f with
  | .first_name => { m with first_name := v }
  | .last_name => { m with last_name := v }
  | .email_address => { m with email_address := v }
  | .zip_code => { m with zip_code := v }
  | .unique_id => { m with unique_id := v }
  | .last_edit => { m with last_edit := v }
  | .source_name => { m with source_name := v }

/-- Python dict assignment `d[field] = value`: overwrite the entry when
the key is present, otherwise add a new entry. -/
def dictInsert : List (Field × Value) → Field → Value → List (Field × Value)
  | [], f, v => [(f, v)]
  | (g, w) :: rest, f, v =>
      if g = f then (g, v) :: rest else (g, w) :: dictInsert rest f v

/-- `records.py Member.set`: when the new value differs from the current
one, mark dirty, record the current value in `_original_dict`, and write
the slot; otherwise do nothing. -/
def Member.set (m : Member) (f : Field) (v : Value) : Member :=
  if m.get f = v then m
  else
    Member.setField
      { m with dirty := true, original_dict := dictInsert m.original_dict f (m.get f) }
      f v

/-- `records.py Member.dirty_fields`: `self._original_dict.keys()`. -/
def Member.dirty_fields (m : Member) : List Field :=
  m.original_dict.map (·.1)

/-- `records.py HashFriendlyMember.get_clean` applied to a value:
strings are lower-cased and stripped, a string that strips to empty
becomes `None`, non-strings pass through. -/
def cleanValue : Value → Value
  | .vstr s =>
      let cleaned := pyStrip (pyLower s)
      if cleaned = "" then .vnone else .vstr cleaned
  | v => v

/-- `records.py HashFriendlyMember.get_clean(field)`. -/
def Member.get_clean (m : Member) (f : Field) : Value :=
  cleanValue (m.get f)

/-- `records.py HashFriendlyMember.hash_with`: the string of the dict
`{field: get_clean(field) for field in only_these_fields}` (default:
`equality_fields`), embedded as the ordered association list whose
printed form that string is. -/
def Member.hash_with (m : Member) (only_these_fields : Option (List Field)) :
    List (Field × Value) :=
  (only_these_fields.getD equality_fields).map (fun f => (f, m.get_clean f))

/-- `records.py HashFriendlyMember._is_eq`: compare the cleaned values
(the two `None` guards in the source are subsumed by the first
equality test but are kept here verbatim). -/
def Member.is_eq (a b : Member) (f : Field) : Bool :=
  let this := a.get_clean f
  let that := b.get_clean f
  if this = that then true
  else if this = .vnone ∨ that = .vnone then false
  else decide (this = that)

/-- `records.py HashFriendlyMember.__lt__` over the sorted equality
fields. The source's fallback line compares `self.get_clean(field)`
with `self.get_clean(field)` — the same value on both sides. -/
def ltAux (a b : Member) : List Field → Bool
  | [] => false
  | f :: rest =>
      if a.is_eq b f then ltAux a b rest
      else Value.lt (a.get_clean f) (a.get_clean f)

/-- `records.py HashFriendlyMember.__lt__`. -/
def Member.lt (a b : Member) : Bool :=
  ltAux a b sort_order_fields

end Rec

end IBSync

namespace IBSync

namespace Rec

lemma get_setField_ne (m : Member) (f : Field) (v : Value) (g : Field) (h : g ≠ f) :
    (m.setField f v).get g = m.get g := by
  cases f <;> cases g <;> simp [Member.setField, Member.get] at h ⊢

lemma set_eq_self_of_get_eq (m : Member) (f : Field) (v : Value) (h : m.get f = v) :
    m.set f v = m := by
  unfold Member.set
  exact if_pos h

lemma Member.get_set_ne (m : Member) (f : Field) (v : Value) (g : Field) (h : g ≠ f) :
    (m.set f v).get g = m.get g := by
  unfold Member.set
  split
  · rfl
  · rw [get_setField_ne _ _ _ _ h]
    cases g <;> rfl

lemma mem_keys_dictInsert (d : List (Field × Value)) (g : Field) (w : Value) (f : Field) :
    f ∈ (dictInsert d g w).map (·.1) ↔ f = g ∨ f ∈ d.map (·.1) := by
  induction d with
  | nil => simp [dictInsert]
  | cons p rest ih =>
      obtain ⟨p1, p2⟩ := p
      by_cases hpg : p1 = g
      · subst hpg
        simp [dictInsert]
      · simp [dictInsert, hpg, ih]
        tauto

lemma dirty_fields_setField (m : Member) (f : Field) (v : Value) :
    (m.setField f v).dirty_fields = m.dirty_fields := by
  cases f <;> rfl

lemma mem_dirty_fields_set (m : Member) (f : Field) (v : Value) (g : Field) :
    g ∈ (m.set f v).dirty_fields ↔ g ∈ m.dirty_fields ∨ (g = f ∧ m.get f ≠ v) := by
  unfold Member.set
  split
  · rename_i h
    simp [h]
  · rename_i h
    rw [dirty_fields_setField]
    show g ∈ (dictInsert m.original_dict f (m.get f)).map (·.1) ↔ _
    rw [mem_keys_dictInsert]
    unfold Member.dirty_fields
    tauto

/-- The sequence of `set(field, value)` calls applied to a member, left
to right. -/
def applyOps (m : Member) (ops : List (Field × Value)) : Member :=
  ops.foldl (fun m p => m.set p.1 p.2) m

lemma applyOps_invariant (m0 : Member) (ops : List (Field × Value)) (m : Member)
    (inv : ∀ f, m.get f ≠ m0.get f → f ∈ m.dirty_fields) :
    ∀ f, (applyOps m ops).get f ≠ m0.get f → f ∈ (applyOps m ops).dirty_fields := by
  induction ops generalizing m with
  | nil => exact inv
  | cons p rest ih =>
      show ∀ f, (applyOps (m.set p.1 p.2) rest).get f ≠ m0.get f → _
      apply ih
      intro f hf
      rw [mem_dirty_fields_set]
      by_cases hfp : f = p.1
      · subst hfp
        by_cases hv : m.get p.1 = p.2
        · left
          apply inv
          rwa [set_eq_self_of_get_eq m p.1 p.2 hv] at hf
        · exact Or.inr ⟨rfl, hv⟩
      · left
        apply inv
        rwa [Member.get_set_ne m p.1 p.2 f hfp] at hf

/-- A concrete freshly constructed member used in witnesses. -/
def m0w : Member :=
  mkMember (.vstr "A") (.vstr "Smith") (.vstr "a@x.com") (.vstr "94704")
    (.vint 0) (.vstr "AirTable") (.vstr "id-1")

end Rec

/-- C6: `hash_with(a, F) == hash_with(b, F)` iff every field in `F` has
equal normalized values in `a` and `b` (strings lower-cased and trimmed,
trim-to-empty mapped to `None`, non-strings passed through); in
particular the key is determined by — and so never depends on fields
outside — the `get_clean` values on `F`. -/
theorem c6_hash_with_iff (a b : Rec.Member) (F : List Field) :
    a.hash_with (some F) = b.hash_with (some F) ↔
      ∀ f ∈ F, a.get_clean f = b.get_clean f := by
  show F.map (fun f => (f, a.get_clean f)) = F.map (fun f => (f, b.get_clean f)) ↔ _
  induction F with
  | nil => simp
  | cons f fs ih =>
      simp only [List.map_cons, List.cons.injEq, Prod.mk.injEq, true_and, ih, List.mem_cons]
      constructor
      · rintro ⟨h1, h2⟩ x hx
        rcases hx with rfl | hx
        · exact h1
        · exact h2 x hx
      · intro h
        exact ⟨h f (Or.inl rfl), fun x hx => h x (Or.inr hx)⟩

/-- C10: `Member.set(f, v)` changes at most the stored value of field
`f` (plus the dirty flag and the original-value map): every other field
reads the same value after the call as before it. -/
theorem c10_set_frame (m : Rec.Member) (f : Field) (v : Value) (g : Field) (h : g ≠ f) :
    (m.set f v).get g = m.get g :=
  Rec.Member.get_set_ne m f v g h

/-- Witness for C10 at a concrete member: setting `first_name` leaves
`last_name` unchanged. -/
theorem c10_witness :
    Field.last_name ≠ Field.first_name ∧
      ((Rec.m0w.set .first_name (.vstr "B")).get .last_name = Rec.m0w.get .last_name) :=
  ⟨by decide, c10_set_frame Rec.m0w .first_name (.vstr "B") .last_name (by decide)⟩

/-- C3 counterexample: starting from a member constructed with
`first_name = "A"`, setting `first_name` to `"B"` and then back to
`"A"` restores the construction-time value, yet `first_name` is still
reported by `dirty_fields()` — so `dirty_fields()` is not exactly the
set of fields whose current value differs from construction time. -/
theorem c3_counterexample :
    (Rec.applyOps Rec.m0w [(.first_name, .vstr "B"), (.first_name, .vstr "A")]).get
        .first_name = Rec.m0w.get .first_name ∧
      Field.first_name ∈
        (Rec.applyOps Rec.m0w
            [(.first_name, .vstr "B"), (.first_name, .vstr "A")]).dirty_fields := by
  decide

/-- C3 (amended): after any sequence of `set` operations,
`dirty_fields()` contains every field whose current value differs from
its construction-time value, but it is only a superset: a field set to
a different value and later set back to its construction-time value
remains in `dirty_fields()`. -/
theorem c3_dirty_fields_superset (fn ln em zc le sn uid : Value)
    (ops : List (Field × Value)) (f : Field)
    (h : (Rec.applyOps (Rec.mkMember fn ln em zc le sn uid) ops).get f ≠
      (Rec.mkMember fn ln em zc le sn uid).get f) :
    f ∈ (Rec.applyOps (Rec.mkMember fn ln em zc le sn uid) ops).dirty_fields :=
  Rec.applyOps_invariant (Rec.mkMember fn ln em zc le sn uid) ops
    (Rec.mkMember fn ln em zc le sn uid) (fun _ hf => absurd rfl hf) f h

/-- Witness for the amended C3 at a concrete input: one effective `set`
puts the field into `dirty_fields()`. -/
theorem c3_witness :
    (Rec.applyOps
          (Rec.mkMember (.vstr "A") (.vstr "Smith") (.vstr "a@x.com") (.vstr "94704")
            (.vint 0) (.vstr "AirTable") (.vstr "id-1"))
          [(.first_name, .vstr "B")]).get .first_name ≠
        (Rec.mkMember (.vstr "A") (.vstr "Smith") (.vstr "a@x.com") (.vstr "94704")
          (.vint 0) (.vstr "AirTable") (.vstr "id-1")).get .first_name ∧
      Field.first_name ∈
        (Rec.applyOps
            (Rec.mkMember (.vstr "A") (.vstr "Smith") (.vstr "a@x.com") (.vstr "94704")
              (.vint 0) (.vstr "AirTable") (.vstr "id-1"))
            [(.first_name, .vstr "B")]).dirty_fields :=
  ⟨by decide,
    c3_dirty_fields_superset (.vstr "A") (.vstr "Smith") (.vstr "a@x.com") (.vstr "94704")
      (.vint 0) (.vstr "AirTable") (.vstr "id-1") [(.first_name, .vstr "B")] .first_name
      (by decide)⟩

end IBSync

namespace IBSync

namespace IBS

/-- `ib_database_sync.py Member`: the seven stored fields plus the
`dirty` flag (this revision has no original-value map). -/
structure Member where
  first_name : Value
  last_name : Value
  email_address : Value
  zip_code : Value
  unique_id : Value
  last_edit : Value
  source_name : Value
  dirty : Bool
deriving DecidableEq, Repr

/-- `ib_database_sync.py Member.get`: the raw stored value (the source
asserts the field is one of `equality_fields`; all call sites in the
file satisfy that, so the passing branch is embedded). -/
def Member.get (m : Member) : Field → Value
  | .first_name => m.first_name
  | .last_name => m.last_name
  | .email_address => m.email_address
  | .zip_code => m.zip_code
  | .unique_id => m.unique_id
  | .last_edit => m.last_edit
  | .source_name => m.source_name

/-- The raw slot write `self.__dict__[field] = value`. -/
def Member.setField (m : Member) (f : Field) (v : Value) : Member :=
  match f with
  | .first_name => { m with first_name := v }
  | .last_name => { m with last_name := v }
  | .email_address => { m with email_address := v }
  | .zip_code => { m with zip_code := v }
  | .unique_id => { m with unique_id := v }
  | .last_edit => { m with last_edit := v }
  | .source_name => { m with source_name := v }

/-- `ib_database_sync.py Member.set`: when the value differs, mark the
whole record dirty and write the slot; otherwise do nothing. -/
def Member.set (m : Member) (f : Field) (v : Value) : Member :=
  if m.get f = v then m
  else { m.setField f v with dirty := true }

/-- `ib_database_sync.py Member.hash_with`: the string of the dict
`{key: self.__dict__[key] for key in only_these_fields}` (default:
`equality_fields`) over the RAW stored values, embedded as the ordered
association list whose printed form that string is. -/
def Member.hash_with (m : Member) (only_these_fields : Option (List Field)) :
    List (Field × Value) :=
  (only_these_fields.getD equality_fields).map (fun f => (f, m.get f))

/-- `ib_database_sync.py HashFriendlyMember._clean`: lower-case and
strip strings, pass everything else through (this revision does NOT
map empty strings to `None`). -/
def clean : Value → Value
  | .vstr s => .vstr (pyStrip (pyLower s))
  | v => v

/-- `ib_database_sync.py HashFriendlyMember._is_eq` on cleaned values. -/
def Member.is_eq (a b : Member) (f : Field) : Bool :=
  let this := clean (a.get f)
  let that := clean (b.get f)
  if this = that then true
  else if this = .vnone ∨ that = .vnone then false
  else decide (this = that)

/-- `ib_database_sync.py HashFriendlyMember.__lt__` over the sorted
equality fields: cleaned case-insensitive equality first, then the raw
stored values under Python `<`. -/
def ltAux (a b : Member) : List Field → Bool
  | [] => false
  | f :: rest =>
      if a.is_eq b f then ltAux a b rest
      else Value.lt (a.get f) (b.get f)

/-- `ib_database_sync.py HashFriendlyMember.__lt__`. -/
def Member.lt (a b : Member) : Bool :=
  ltAux a b sort_order_fields

/-- The list `[m.get(field) for m in members]`. -/
def fieldValues (members : List Member) (f : Field) : List Value :=
  members.map (fun m => m.get f)

/-- `ConflictResolver.is_any_conflict` on a value list:
`not all([v == values[0] for v in values])` (an empty list has no
conflict). -/
def valuesConflict : List Value → Bool
  | [] => false
  | v0 :: rest => ! (v0 :: rest).all (fun v => decide (v = v0))

/-- `ConflictResolver.is_any_conflict(members, field)`. -/
def is_any_conflict (members : List Member) (f : Field) : Bool :=
  valuesConflict (fieldValues members f)

/-- `not_none = [v for v in values if v is not None]` for a field. -/
def notNoneValues (members : List Member) (f : Field) : List Value :=
  (fieldValues members f).filter (fun v => decide (v ≠ Value.vnone))

/-- One iteration of the `for field in equality_fields` loop of
`MissingFieldResolver.resolve`, threading the member list (mutated in
place in the source) and the `all_conflicts_resolved` flag. A
conflicted field with no non-`None` value is impossible (the source
asserts `len(not_none) == 1` there); that branch leaves the state
unchanged. -/
def missingStep (st : List Member × Bool) (f : Field) : List Member × Bool :=
  if is_any_conflict st.1 f then
    match notNoneValues st.1 f with
    | [] => st
    | [v] => (st.1.map (fun m => m.set f v), st.2)
    | _ :: _ :: _ => (st.1, false)
  else st

/-- `MissingFieldResolver.resolve(members, equality_fields)`: the final
member list and the returned `all_conflicts_resolved` flag. -/
def MissingFieldResolver.resolve (members : List Member) (fields : List Field) :
    List Member × Bool :=
  fields.foldl missingStep (members, true)

end IBS

end IBSync

namespace IBSync

namespace IBS

lemma ibs_get_setField_ne (m : Member) (f : Field) (v : Value) (g : Field) (h : g ≠ f) :
    (m.setField f v).get g = m.get g := by
  cases f <;> cases g <;> simp [Member.setField, Member.get] at h ⊢

lemma get_dirty_update (m : Member) (b : Bool) (g : Field) :
    ({ m with dirty := b } : Member).get g = m.get g := by
  cases g <;> rfl

lemma ibs_get_set_ne (m : Member) (f : Field) (v : Value) (g : Field) (h : g ≠ f) :
    (m.set f v).get g = m.get g := by
  unfold Member.set
  split
  · rfl
  · rw [get_dirty_update, ibs_get_setField_ne _ _ _ _ h]

lemma fieldValues_map_set_ne (ms : List Member) (f : Field) (v : Value) (g : Field)
    (h : g ≠ f) :
    fieldValues (ms.map (fun m => m.set f v)) g = fieldValues ms g := by
  unfold fieldValues
  rw [List.map_map]
  apply List.map_congr_left
  intro m _
  exact ibs_get_set_ne m f v g h

lemma missingStep_fieldValues_ne (st : List Member × Bool) (f : Field) (g : Field)
    (h : g ≠ f) :
    fieldValues (missingStep st f).1 g = fieldValues st.1 g := by
  unfold missingStep
  split
  · split
    · rfl
    · exact fieldValues_map_set_ne st.1 f _ g h
    · rfl
  · rfl

lemma missingStep_flag (st : List Member × Bool) (f : Field) :
    (missingStep st f).2 =
      (st.2 && !(is_any_conflict st.1 f && decide (1 < (notNoneValues st.1 f).length))) := by
  unfold missingStep
  cases hc : is_any_conflict st.1 f with
  | false => simp
  | true =>
      simp only [if_pos rfl]
      cases hnn : notNoneValues st.1 f with
      | nil => simp [hnn]
      | cons v rest =>
          cases rest with
          | nil => simp [hnn]
          | cons w rest2 => simp [hnn]

lemma list_all_congr {α : Type} {l : List α} {p q : α → Bool}
    (h : ∀ x ∈ l, p x = q x) : l.all p = l.all q := by
  induction l with
  | nil => rfl
  | cons x xs ih =>
      simp only [List.all_cons]
      rw [h x (List.mem_cons_self x xs), ih (fun y hy => h y (List.mem_cons_of_mem x hy))]

lemma missingFoldl_flag (fields : List Field) (ms : List Member) (b : Bool)
    (hnd : fields.Nodup) :
    (fields.foldl missingStep (ms, b)).2 =
      (b && fields.all
        (fun f => !(is_any_conflict ms f && decide (1 < (notNoneValues ms f).length)))) := by
  induction fields generalizing ms b with
  | nil => simp
  | cons f rest ih =>
      have hfr : f ∉ rest := (List.nodup_cons.mp hnd).1
      have hndr : rest.Nodup := (List.nodup_cons.mp hnd).2
      rw [List.foldl_cons]
      have hst : missingStep (ms, b) f =
          ((missingStep (ms, b) f).1, (missingStep (ms, b) f).2) := rfl
      rw [hst, ih _ _ hndr]
      have hall :
          rest.all (fun g =>
            !(is_any_conflict (missingStep (ms, b) f).1 g &&
              decide (1 < (notNoneValues (missingStep (ms, b) f).1 g).length))) =
          rest.all (fun g =>
            !(is_any_conflict ms g && decide (1 < (notNoneValues ms g).length))) := by
        apply list_all_congr
        intro g hg
        have hne : g ≠ f := fun e => hfr (e ▸ hg)
        have hv := missingStep_fieldValues_ne (ms, b) f g hne
        unfold is_any_conflict notNoneValues
        rw [hv]
      rw [hall, missingStep_flag]
      simp [Bool.and_assoc]

end IBS

/-- C1 counterexample inputs: `first_name` is resolvable (unique
non-`None` value `"A"`), `last_name` has two conflicting non-`None`
values. -/
def mc1a : IBS.Member :=
  { first_name := .vstr "A", last_name := .vstr "X", email_address := .vstr "e@x.com"
    zip_code := .vstr "94704", unique_id := .vstr "id-a", last_edit := .vint 0
    source_name := .vstr "ActionNetwork", dirty := false }

/-- Second C1 counterexample member: missing `first_name`. -/
def mc1b : IBS.Member :=
  { first_name := .vnone, last_name := .vstr "Y", email_address := .vstr "e@x.com"
    zip_code := .vstr "94704", unique_id := .vstr "id-b", last_edit := .vint 0
    source_name := .vstr "AirTable", dirty := false }

/-- C1 counterexample: `MissingFieldResolver.resolve` returns `false`
(the `last_name` conflict is irreconcilable) yet the member records
were mutated: the second member's `first_name` was filled in and its
dirty flag newly set. -/
theorem c1_counterexample :
    (IBS.MissingFieldResolver.resolve [mc1a, mc1b] [.first_name, .last_name]).2 = false ∧
      (IBS.MissingFieldResolver.resolve [mc1a, mc1b] [.first_name, .last_name]).1 =
        [mc1a, { mc1b with first_name := .vstr "A", dirty := true }] ∧
      ({ mc1b with first_name := .vstr "A", dirty := true } : IBS.Member) ≠ mc1b := by
  decide

/-- C1 (amended): a `false` return of `MissingFieldResolver.resolve`
does not mean "no mutation"; the flag it returns is exactly "no field
in `equality_fields` had a conflict with two or more non-`None` values
(counted with multiplicity)", while fields with a unique non-`None`
holder are filled in regardless of the final flag. -/
theorem c1_resolve_flag (ms : List IBS.Member) (fields : List Field)
    (hnd : fields.Nodup) :
    (IBS.MissingFieldResolver.resolve ms fields).2 =
      fields.all (fun f =>
        !(IBS.is_any_conflict ms f && decide (1 < (IBS.notNoneValues ms f).length))) := by
  unfold IBS.MissingFieldResolver.resolve
  rw [IBS.missingFoldl_flag _ _ _ hnd]
  simp

/-- Witness for the amended C1 at the counterexample input. -/
theorem c1_witness :
    ([Field.first_name, Field.last_name].Nodup) ∧
      (IBS.MissingFieldResolver.resolve [mc1a, mc1b] [.first_name, .last_name]).2 =
        [Field.first_name, Field.last_name].all (fun f =>
          !(IBS.is_any_conflict [mc1a, mc1b] f &&
            decide (1 < (IBS.notNoneValues [mc1a, mc1b] f).length))) :=
  ⟨by decide, c1_resolve_flag [mc1a, mc1b] [.first_name, .last_name] (by decide)⟩

/-- C5 counterexample inputs: one member holds the empty string on
`first_name`, the other holds `None`; all other fields agree. -/
def mc5a : IBS.Member :=
  { first_name := .vstr "", last_name := .vstr "Smith", email_address := .vstr "e@x.com"
    zip_code := .vstr "94704", unique_id := .vstr "id-a", last_edit := .vint 0
    source_name := .vstr "ActionNetwork", dirty := false }

/-- Second C5 counterexample member: `first_name` is `None`. -/
def mc5b : IBS.Member :=
  { first_name := .vnone, last_name := .vstr "Smith", email_address := .vstr "e@x.com"
    zip_code := .vstr "94704", unique_id := .vstr "id-b", last_edit := .vint 0
    source_name := .vstr "AirTable", dirty := false }

/-- C5 counterexample: with exactly one member holding the empty string
and the other holding `None` on `first_name`, `MissingFieldResolver`
DOES copy the empty string into the other member (raw `get` makes `""`
a non-`None` value) and reports the conflict fully resolved. -/
theorem c5_counterexample :
    (IBS.MissingFieldResolver.resolve [mc5a, mc5b] equality_fields).2 = true ∧
      (IBS.MissingFieldResolver.resolve [mc5a, mc5b] equality_fields).1 =
        [mc5a, { mc5b with first_name := .vstr "", dirty := true }] ∧
      mc5b.get .first_name = .vnone := by
  decide

/-- C5 (amended): an empty-string value IS treated as the authoritative
value when it is the unique non-`None` value of a conflicted field: the
loop body assigns it to every member and leaves the resolved flag
untouched. -/
theorem c5_empty_string_applied (st : List IBS.Member × Bool) (f : Field)
    (hc : IBS.is_any_conflict st.1 f = true)
    (hnn : IBS.notNoneValues st.1 f = [Value.vstr ""]) :
    IBS.missingStep st f = (st.1.map (fun m => m.set f (.vstr "")), st.2) := by
  unfold IBS.missingStep
  rw [hc, hnn]
  simp

/-- Witness for the amended C5 at the counterexample input. -/
theorem c5_witness :
    IBS.is_any_conflict [mc5a, mc5b] .first_name = true ∧
      IBS.notNoneValues [mc5a, mc5b] .first_name = [Value.vstr ""] ∧
      IBS.missingStep ([mc5a, mc5b], true) .first_name =
        ([mc5a, mc5b].map (fun m => m.set .first_name (.vstr "")), true) :=
  ⟨by decide, by decide,
    c5_empty_string_applied ([mc5a, mc5b], true) .first_name (by decide) (by decide)⟩

end IBSync

namespace IBSync

namespace IBS

/-- The equality-key type: the embedding of the `str(dict)` strings the
source uses as hash-map keys. -/
abbrev Key := List (Field × Value)

/-- The body of the `for m in members` loop of `hash_members`: create
the key's (empty) entry when absent, then append the member to it. -/
def hashInsert : List (Key × List Member) → Key → Member → List (Key × List Member)
  | [], k, m => [(k, [m])]
  | (k', l) :: rest, k, m =>
      if k' = k then (k', l ++ [m]) :: rest
      else (k', l) :: hashInsert rest k m

/-- `ib_database_sync.py hash_members(members, field_set)`: the dict
from equality key to the list of members with that key, in insertion
order. -/
def hash_members (members : List Member) (field_set : Option (List Field)) :
    List (Key × List Member) :=
  members.foldl (fun d m => hashInsert d (m.hash_with field_set) m) []

/-- `ib_database_sync.py find_duplicates_within`: the entries of the
hashed-members dict holding more than one member. -/
def find_duplicates_within (hashed_members : List (Key × List Member)) :
    List (List Member) :=
  (hashed_members.filter (fun kv => decide (1 < kv.2.length))).map (fun kv => kv.2)

lemma mem_keys_hashInsert (d : List (Key × List Member)) (k : Key) (m : Member)
    (x : Key) :
    x ∈ (hashInsert d k m).map (·.1) ↔ x ∈ d.map (·.1) ∨ x = k := by
  induction d with
  | nil => simp [hashInsert]
  | cons p rest ih =>
      obtain ⟨k', l⟩ := p
      by_cases hk : k' = k
      · subst hk
        simp [hashInsert]
        tauto
      · simp [hashInsert, hk, ih]
        tauto

lemma keys_nodup_hashInsert (d : List (Key × List Member)) (k : Key) (m : Member)
    (hnd : (d.map (·.1)).Nodup) : ((hashInsert d k m).map (·.1)).Nodup := by
  induction d with
  | nil => simp [hashInsert]
  | cons p rest ih =>
      obtain ⟨k', l⟩ := p
      simp only [List.map_cons, List.nodup_cons] at hnd
      by_cases hk : k' = k
      · subst hk
        unfold hashInsert
        rw [if_pos rfl]
        simp only [List.map_cons, List.nodup_cons]
        exact hnd
      · simp only [hashInsert, if_neg hk, List.map_cons, List.nodup_cons]
        constructor
        · rw [mem_keys_hashInsert]
          rintro (hx | rfl)
          · exact hnd.1 hx
          · exact hk rfl
        · exact ih hnd.2

lemma entries_hashInsert (d : List (Key × List Member)) (k : Key) (m : Member)
    (fs : Option (List Field)) (hk : m.hash_with fs = k)
    (hd : ∀ kv ∈ d, ∀ x ∈ kv.2, Member.hash_with x fs = kv.1) :
    ∀ kv ∈ hashInsert d k m, ∀ x ∈ kv.2, Member.hash_with x fs = kv.1 := by
  induction d with
  | nil =>
      intro kv hkv x hx
      simp [hashInsert] at hkv
      subst hkv
      simp at hx
      subst hx
      exact hk
  | cons p rest ih =>
      obtain ⟨k', l⟩ := p
      by_cases hkk : k' = k
      · subst hkk
        intro kv hkv x hx
        unfold hashInsert at hkv
        rw [if_pos rfl] at hkv
        rcases List.mem_cons.mp hkv with rfl | hkv
        · show Member.hash_with x fs = k'
          rcases List.mem_append.mp hx with hx | hx
          · exact hd (k', l) (List.mem_cons_self _ _) x hx
          · rw [List.mem_singleton.mp hx]
            exact hk
        · exact hd kv (List.mem_cons_of_mem _ hkv) x hx
      · intro kv hkv x hx
        simp only [hashInsert, if_neg hkk, List.mem_cons] at hkv
        rcases hkv with rfl | hkv
        · exact hd (k', l) (List.mem_cons_self _ _) x hx
        · exact ih (fun kv h => hd kv (List.mem_cons_of_mem _ h)) kv hkv x hx

lemma hash_members_invariant (members : List Member) (fs : Option (List Field)) :
    ∀ d : List (Key × List Member), (d.map (·.1)).Nodup →
      (∀ kv ∈ d, ∀ x ∈ kv.2, Member.hash_with x fs = kv.1) →
      ((members.foldl (fun d m => hashInsert d (m.hash_with fs) m) d).map (·.1)).Nodup ∧
        ∀ kv ∈ members.foldl (fun d m => hashInsert d (m.hash_with fs) m) d,
          ∀ x ∈ kv.2, Member.hash_with x fs = kv.1 := by
  induction members with
  | nil => exact fun d hnd hinv => ⟨hnd, hinv⟩
  | cons m rest ih =>
      intro d hnd hinv
      exact ih (hashInsert d (m.hash_with fs) m)
        (keys_nodup_hashInsert d _ m hnd)
        (entries_hashInsert d _ m fs rfl hinv)

lemma eq_of_mem_of_nodup_keys (d : List (Key × List Member)) (k : Key)
    (g1 g2 : List Member) (hnd : (d.map (·.1)).Nodup)
    (h1 : (k, g1) ∈ d) (h2 : (k, g2) ∈ d) : g1 = g2 := by
  induction d with
  | nil => cases h1
  | cons p rest ih =>
      simp only [List.map_cons, List.nodup_cons] at hnd
      rcases List.mem_cons.mp h1 with rfl | h1'
      · rcases List.mem_cons.mp h2 with h2' | h2'
        · exact (Prod.ext_iff.mp h2').2.symm
        · exact absurd (List.mem_map_of_mem (·.1) h2') hnd.1
      · rcases List.mem_cons.mp h2 with rfl | h2'
        · exact absurd (List.mem_map_of_mem (·.1) h1') hnd.1
        · exact ih hnd.2 h1' h2'

/-- C7: over the groups `find_duplicates_within` extracts from
`hash_members(members, field_set)`, every group has size at least 2,
all members of one group share the same equality key, and no record
lies in two distinct returned groups. -/
theorem c7_find_duplicates_within (members : List IBS.Member)
    (field_set : Option (List Field)) :
    (∀ g ∈ IBS.find_duplicates_within (IBS.hash_members members field_set),
        2 ≤ g.length ∧
          ∀ a ∈ g, ∀ b ∈ g,
            IBS.Member.hash_with a field_set = IBS.Member.hash_with b field_set) ∧
      ∀ g1 ∈ IBS.find_duplicates_within (IBS.hash_members members field_set),
        ∀ g2 ∈ IBS.find_duplicates_within (IBS.hash_members members field_set),
          ∀ x : IBS.Member, x ∈ g1 → x ∈ g2 → g1 = g2 := by
  have hmain := IBS.hash_members_invariant members field_set [] (by simp) (by simp)
  have hnd := hmain.1
  have hinv := hmain.2
  have hget : ∀ g ∈ IBS.find_duplicates_within (IBS.hash_members members field_set),
      ∃ k : IBS.Key, (k, g) ∈ IBS.hash_members members field_set ∧ 1 < g.length := by
    intro g hg
    unfold IBS.find_duplicates_within at hg
    rcases List.mem_map.mp hg with ⟨kv, hkv, rfl⟩
    rcases List.mem_filter.mp hkv with ⟨hkvmem, hlen⟩
    exact ⟨kv.1, hkvmem, by simpa using hlen⟩
  constructor
  · intro g hg
    rcases hget g hg with ⟨k, hkmem, hlen⟩
    refine ⟨hlen, ?_⟩
    intro a ha b hb
    rw [hinv (k, g) hkmem a ha, hinv (k, g) hkmem b hb]
  · intro g1 hg1 g2 hg2 x hx1 hx2
    rcases hget g1 hg1 with ⟨k1, hk1, _⟩
    rcases hget g2 hg2 with ⟨k2, hk2, _⟩
    have e1 : IBS.Member.hash_with x field_set = k1 := hinv (k1, g1) hk1 x hx1
    have e2 : IBS.Member.hash_with x field_set = k2 := hinv (k2, g2) hk2 x hx2
    have : k1 = k2 := e1 ▸ e2
    subst this
    exact IBS.eq_of_mem_of_nodup_keys _ k1 g1 g2 hnd hk1 hk2

end IBS

end IBSync

namespace IBSync

/-- C8 input: a record whose `last_name` ("Adams") is lexicographically
below the other's ("Baker"), `records.py` layout. -/
def rc8a : Rec.Member :=
  Rec.mkMember (.vstr "Alice") (.vstr "Adams") (.vstr "a@x.com") (.vstr "94704")
    (.vint 0) (.vstr "AirTable") (.vstr "id-a")

/-- C8 input: the other `records.py` record, `last_name = "Baker"`. -/
def rc8b : Rec.Member :=
  Rec.mkMember (.vstr "Bob") (.vstr "Baker") (.vstr "b@x.com") (.vstr "94110")
    (.vint 0) (.vstr "ActionNetwork") (.vstr "id-b")

/-- C8 input: the same first record in the `ib_database_sync.py`
member layout. -/
def ic8a : IBS.Member :=
  { first_name := .vstr "Alice", last_name := .vstr "Adams", email_address := .vstr "a@x.com"
    zip_code := .vstr "94704", unique_id := .vstr "id-a", last_edit := .vint 0
    source_name := .vstr "AirTable", dirty := false }

/-- C8 input: the same second record in the `ib_database_sync.py`
member layout. -/
def ic8b : IBS.Member :=
  { first_name := .vstr "Bob", last_name := .vstr "Baker", email_address := .vstr "b@x.com"
    zip_code := .vstr "94110", unique_id := .vstr "id-b", last_edit := .vint 0
    source_name := .vstr "ActionNetwork", dirty := false }

/-- C8: at two records that differ on the very first sort field
(`last_name` "Adams" vs "Baker"), the claimed lexicographic ordering
would make the first record compare less-than the second — the
`ib_database_sync.py` revision of `__lt__` (raw less-than fallback)
does return true — but the `records.py` revision returns false in both
directions, because its fallback line compares `self.get_clean(field)`
with itself. -/
theorem c8_lt_divergence :
    IBS.Member.lt ic8a ic8b = true ∧
      Rec.Member.lt rc8a rc8b = false ∧
      Rec.Member.lt rc8b rc8a = false ∧
      Rec.Member.get_clean rc8a .last_name ≠ Rec.Member.get_clean rc8b .last_name := by
  decide

end IBSync

namespace IBSync

namespace IBS

/-- Conflicting member group found by `find_duplicates_across` (the
source object also carries the resolver list; only the member list
matters for the emitted-results claims). -/
structure MergeConflict where
  members : List Member
deriving DecidableEq, Repr

/-- Python `key in d` on the hashed-members dict. -/
def dictContains (d : List (Key × List Member)) (k : Key) : Bool :=
  d.any (fun kv => decide (kv.1 = k))

/-- Python `d[key]` on the hashed-members dict (callers only read keys
that are present; an absent key yields the empty list here where the
source would raise). -/
def dictGet (d : List (Key × List Member)) (k : Key) : List Member :=
  ((d.find? (fun kv => decide (kv.1 = k))).map (·.2)).getD []

/-- `ib_database_sync.py find_duplicates_across`: walks `all_members`,
asserting each member's full key is in some exact map and its
equivalence key in some loose map (`none` embeds the assertion
failure), and emits a `MergeConflict`, a needs-sync entry or an
up-to-date entry per member. No seen-set of processed keys is kept. -/
def find_duplicates_across :
    List Member → List Field → List (Key × List Member) → List (Key × List Member) →
      List (Key × List Member) → List (Key × List Member) →
      Option (List MergeConflict × List Member × List Member)
  | [], _, _, _, _, _ => some ([], [], [])
  | m :: rest, field_set, an_all, at_all, an_some, at_some =>
      if dictContains at_all (m.hash_with none) || dictContains an_all (m.hash_with none) then
        if dictContains at_some (m.hash_with (some field_set)) ||
            dictContains an_some (m.hash_with (some field_set)) then
          match find_duplicates_across rest field_set an_all at_all an_some at_some with
          | none => none
          | some (mc, ns, utd) =>
              if !(dictContains at_all (m.hash_with none)) ||
                  !(dictContains an_all (m.hash_with none)) then
                if dictContains at_some (m.hash_with (some field_set)) &&
                    dictContains an_some (m.hash_with (some field_set)) then
                  some (MergeConflict.mk
                      (dictGet an_some (m.hash_with (some field_set)) ++
                        dictGet at_some (m.hash_with (some field_set))) :: mc, ns, utd)
                else if dictContains at_some (m.hash_with (some field_set)) &&
                    !(dictContains an_some (m.hash_with (some field_set))) then
                  some (mc, m :: ns, utd)
                else if dictContains an_some (m.hash_with (some field_set)) &&
                    !(dictContains at_some (m.hash_with (some field_set))) then
                  some (mc, m :: ns, utd)
                else none
              else some (mc, ns, m :: utd)
        else none
      else none

/-- The condition under which one representative appends a
`MergeConflict`: its full key is missing from one exact map and its
equivalence key is in both loose maps. -/
def emitsConflict (field_set : List Field)
    (an_all at_all an_some at_some : List (Key × List Member)) (m : Member) : Bool :=
  (!(dictContains at_all (m.hash_with none)) || !(dictContains an_all (m.hash_with none))) &&
    (dictContains at_some (m.hash_with (some field_set)) &&
      dictContains an_some (m.hash_with (some field_set)))

end IBS

end IBSync

namespace IBSync

/-- C2 input: ActionNetwork representative (email `e@x.com`, first
name `X`). -/
def mc2a : IBS.Member :=
  { first_name := .vstr "X", last_name := .vstr "L", email_address := .vstr "e@x.com"
    zip_code := .vstr "94704", unique_id := .vstr "id-a", last_edit := .vint 0
    source_name := .vstr "ActionNetwork", dirty := false }

/-- C2 input: AirTable representative sharing the email but not the
first name, hence a distinct full-identity key. -/
def mc2b : IBS.Member :=
  { first_name := .vstr "Y", last_name := .vstr "L", email_address := .vstr "e@x.com"
    zip_code := .vstr "94704", unique_id := .vstr "id-b", last_edit := .vint 0
    source_name := .vstr "AirTable", dirty := false }

/-- C2 input: ActionNetwork exact map, keyed by all equality fields. -/
def c2_an_all : List (IBS.Key × List IBS.Member) :=
  [(IBS.Member.hash_with mc2a none, [mc2a])]

/-- C2 input: AirTable exact map. -/
def c2_at_all : List (IBS.Key × List IBS.Member) :=
  [(IBS.Member.hash_with mc2b none, [mc2b])]

/-- C2 input: ActionNetwork loose map under `['email_address']`. -/
def c2_an_some : List (IBS.Key × List IBS.Member) :=
  [(IBS.Member.hash_with mc2a (some [.email_address]), [mc2a])]

/-- C2 input: AirTable loose map under `['email_address']`. -/
def c2_at_some : List (IBS.Key × List IBS.Member) :=
  [(IBS.Member.hash_with mc2b (some [.email_address]), [mc2b])]

/-- C2 counterexample: two distinct representatives share the
equivalence key (same email); `find_duplicates_across` emits TWO
identical `MergeConflict`s for that one key — no seen-set makes the
key processed at most once. -/
theorem c2_counterexample :
    mc2a ≠ mc2b ∧
      IBS.Member.hash_with mc2a (some [.email_address]) =
        IBS.Member.hash_with mc2b (some [.email_address]) ∧
      IBS.find_duplicates_across [mc2a, mc2b] [.email_address]
          c2_an_all c2_at_all c2_an_some c2_at_some =
        some ([IBS.MergeConflict.mk [mc2a, mc2b], IBS.MergeConflict.mk [mc2a, mc2b]],
          [], []) := by
  decide

/-- C2 (amended): `find_duplicates_across` emits one `MergeConflict`
per REPRESENTATIVE (not per equivalence key): when it returns without
an assertion failure, the emitted conflict list is exactly one entry —
the concatenation of the two loose-map buckets of the member's
equivalence key — for every member of `all_members` whose full key is
missing on one side while its equivalence key is in both loose maps;
`k` representatives sharing a key therefore yield `k` identical
conflicts. -/
theorem c2_conflicts_per_representative (all_members : List IBS.Member)
    (field_set : List Field)
    (an_all at_all an_some at_some : List (IBS.Key × List IBS.Member))
    (t : List IBS.MergeConflict × List IBS.Member × List IBS.Member)
    (h : IBS.find_duplicates_across all_members field_set an_all at_all an_some at_some =
      some t) :
    t.1 = (all_members.filter
        (IBS.emitsConflict field_set an_all at_all an_some at_some)).map
      (fun m => IBS.MergeConflict.mk
        (IBS.dictGet an_some (m.hash_with (some field_set)) ++
          IBS.dictGet at_some (m.hash_with (some field_set)))) := by
  induction all_members generalizing t with
  | nil =>
      simp only [IBS.find_duplicates_across, Option.some.injEq] at h
      subst h
      simp
  | cons m rest ih =>
      cases hrec : IBS.find_duplicates_across rest field_set an_all at_all an_some at_some with
      | none =>
          cases hAtAll : IBS.dictContains at_all (m.hash_with none) <;>
            cases hAnAll : IBS.dictContains an_all (m.hash_with none) <;>
            cases hAtSome : IBS.dictContains at_some (m.hash_with (some field_set)) <;>
            cases hAnSome : IBS.dictContains an_some (m.hash_with (some field_set)) <;>
            simp [IBS.find_duplicates_across, hAtAll, hAnAll, hAtSome, hAnSome, hrec] at h
      | some t' =>
          obtain ⟨mc', ns', utd'⟩ := t'
          have ihr : mc' = _ := ih (mc', ns', utd') hrec
          cases hAtAll : IBS.dictContains at_all (m.hash_with none) <;>
            cases hAnAll : IBS.dictContains an_all (m.hash_with none) <;>
            cases hAtSome : IBS.dictContains at_some (m.hash_with (some field_set)) <;>
            cases hAnSome : IBS.dictContains an_some (m.hash_with (some field_set)) <;>
            simp only [IBS.find_duplicates_across, hAtAll, hAnAll, hAtSome, hAnSome, hrec,
              Bool.not_true, Bool.not_false, Bool.or_true, Bool.true_or, Bool.or_false,
              Bool.false_or, Bool.and_true, Bool.true_and, Bool.and_false, Bool.false_and,
              if_true, if_false, Option.some.injEq, reduceCtorEq] at h <;>
            first
            | exact absurd h (by simp)
            | (subst h
               simp [IBS.emitsConflict, hAtAll, hAnAll, hAtSome, hAnSome, ihr])

/-- Witness for the amended C2 at the counterexample input: the two
qualifying representatives each contribute one identical conflict. -/
theorem c2_witness :
    ([IBS.MergeConflict.mk [mc2a, mc2b], IBS.MergeConflict.mk [mc2a, mc2b]] :
        List IBS.MergeConflict) =
      ([mc2a, mc2b].filter
          (IBS.emitsConflict [.email_address] c2_an_all c2_at_all c2_an_some c2_at_some)).map
        (fun m => IBS.MergeConflict.mk
          (IBS.dictGet c2_an_some (m.hash_with (some [.email_address])) ++
            IBS.dictGet c2_at_some (m.hash_with (some [.email_address])))) :=
  c2_conflicts_per_representative [mc2a, mc2b] [.email_address]
    c2_an_all c2_at_all c2_an_some c2_at_some
    ([IBS.MergeConflict.mk [mc2a, mc2b], IBS.MergeConflict.mk [mc2a, mc2b]], [], [])
    (by decide)

end IBSync

namespace IBSync

namespace IBS

/-- Outcome of one `merge_conflict.resolve()` call in the
`resolve_merge_conflicts` loop: returned true, returned false, or
raised `UserQuit`/`KeyboardInterrupt`. The interactive resolver chain
behind it is abstracted as an oracle assigning each conflict its
outcome. -/
inductive ResolveOutcome where
  | resolved
  | unresolvedConflict
  | quit
deriving DecidableEq, Repr

/-- `ib_database_sync.py resolve_merge_conflicts`: walk the conflicts;
collect those whose `resolve()` returns false; on a quit signal at
index `i`, return the collected ones plus `merge_conflicts[i:]` (the
quitting conflict included) and stop. -/
def resolve_merge_conflicts (outcome : MergeConflict → ResolveOutcome) :
    List MergeConflict → List MergeConflict
  | [] => []
  | c :: rest =>
      match outcome c with
      | .resolved => resolve_merge_conflicts outcome rest
      | .unresolvedConflict => c :: resolve_merge_conflicts outcome rest
      | .quit => c :: rest

end IBS

/-- C9: if the conflict at index `i` raises a quit signal and no
earlier conflict did, `resolve_merge_conflicts` returns exactly the
earlier conflicts that failed to resolve, followed by every conflict
from index `i` onward; earlier successfully resolved conflicts do not
reappear in the returned list. -/
theorem c9_quit_preserves_progress (outcome : IBS.MergeConflict → IBS.ResolveOutcome)
    (pre : List IBS.MergeConflict) (c : IBS.MergeConflict) (post : List IBS.MergeConflict)
    (hpre : ∀ x ∈ pre, outcome x ≠ .quit) (hc : outcome c = .quit) :
    IBS.resolve_merge_conflicts outcome (pre ++ c :: post) =
      pre.filter (fun x => decide (outcome x = .unresolvedConflict)) ++ c :: post := by
  induction pre with
  | nil => simp [IBS.resolve_merge_conflicts, hc]
  | cons x xs ih =>
      have hx : outcome x ≠ .quit := hpre x (List.mem_cons_self x xs)
      have hxs : ∀ y ∈ xs, outcome y ≠ .quit := fun y hy => hpre y (List.mem_cons_of_mem x hy)
      cases ho : outcome x with
      | resolved =>
          simp [IBS.resolve_merge_conflicts, ho, ih hxs, List.filter_cons]
      | unresolvedConflict =>
          simp [IBS.resolve_merge_conflicts, ho, ih hxs, List.filter_cons]
      | quit => exact absurd ho hx

/-- C9 witness conflict: resolves cleanly. -/
def c9c1 : IBS.MergeConflict := IBS.MergeConflict.mk [mc2a]

/-- C9 witness conflict: fails to resolve. -/
def c9c2 : IBS.MergeConflict := IBS.MergeConflict.mk [mc2b]

/-- C9 witness conflict: the user quits here. -/
def c9cq : IBS.MergeConflict := IBS.MergeConflict.mk []

/-- C9 witness conflict: never reached. -/
def c9cd : IBS.MergeConflict := IBS.MergeConflict.mk [mc2a, mc2b]

/-- C9 witness outcome oracle. -/
def c9outcome (c : IBS.MergeConflict) : IBS.ResolveOutcome :=
  if c = c9c1 then .resolved
  else if c = c9c2 then .unresolvedConflict
  else .quit

/-- Witness for C9 at a concrete batch: quit at index 2 keeps the one
earlier failure and everything from the quit onward. -/
theorem c9_witness :
    (∀ x ∈ [c9c1, c9c2], c9outcome x ≠ .quit) ∧
      IBS.resolve_merge_conflicts c9outcome ([c9c1, c9c2] ++ c9cq :: [c9cd]) =
        [c9c1, c9c2].filter (fun x => decide (c9outcome x = .unresolvedConflict)) ++
          c9cq :: [c9cd] :=
  ⟨by decide,
    c9_quit_preserves_progress c9outcome [c9c1, c9c2] c9cq [c9cd] (by decide) (by decide)⟩

namespace IBS

/-- A conflict resolver as `MergeConflict.resolve` consumes it: takes
the (shared, in-place mutated) member list and the equality fields,
returns the updated members and the resolved flag. -/
abbrev Resolver := List Member → List Field → List Member × Bool

/-- `ib_database_sync.py MergeConflict.resolve`: try each resolver in
list order on the shared member list, returning true at the first
resolver that reports success; false when every resolver declined
(mutations made by declining resolvers persist, hence the threading). -/
def MergeConflict.resolveWith : List Resolver → List Member → List Field →
    List Member × Bool
  | [], members, _ => (members, false)
  | r :: rs, members, fields =>
      let res := r members fields
      if res.2 then res else MergeConflict.resolveWith rs res.1 fields

/-- Modelled from the spec: `ZipCodeResolver` (imported from
`ib_database_sync` by test.py, but the module revision defining it is
absent from src/). It applies only when `zip_code` is among the
equality fields and no other equality field currently disagrees; among
the members' zip codes it prefers the first ZIP+4 value
(`\d{5}-\d{4}`), then the first bare five-digit value (`\d{5}`), and
declines when none matches either pattern; on success the chosen zip
is applied to every member. -/
def ZipCodeResolver.resolve (members : List Member) (fields : List Field) :
    List Member × Bool :=
  if ¬ (Field.zip_code ∈ fields) then (members, false)
  else if (fields.filter (fun f => decide (f ≠ Field.zip_code))).any
      (fun f => is_any_conflict members f) then (members, false)
  else
    match (members.map (fun m => m.get .zip_code)).find? valueZipPlus4 with
    | some v => (members.map (fun m => m.set .zip_code v), true)
    | none =>
        match (members.map (fun m => m.get .zip_code)).find? valueZip5 with
        | some v => (members.map (fun m => m.set .zip_code v), true)
        | none => (members, false)
where
  /-- Modelled from the spec: full match of the ZIP+4 pattern
  `\d{5}-\d{4}` on a string value. -/
  valueZipPlus4 : Value → Bool
    | .vstr s =>
        decide (s.data.length = 10) && (s.data.take 5).all Char.isDigit &&
          (match s.data.drop 5 with
           | c :: rest => decide (c = '-') && rest.all Char.isDigit
           | [] => false)
    | _ => false
  /-- Modelled from the spec: full match of the bare five-digit pattern
  `\d{5}` on a string value. -/
  valueZip5 : Value → Bool
    | .vstr s => decide (s.data.length = 5) && s.data.all Char.isDigit
    | _ => false

/-- Modelled from the spec: the fixed resolver priority list
`[MissingFieldResolver, ZipCodeResolver, ManualResolver]` of the
revision whose `ZipCodeResolver` test.py exercises; the interactive
`ManualResolver` is the abstract last resolver. -/
def resolverPipeline (manual : Resolver) : List Resolver :=
  [fun ms fs => MissingFieldResolver.resolve ms fs,
   fun ms fs => ZipCodeResolver.resolve ms fs,
   manual]

/-- `MergeConflict.resolve` over the three-resolver pipeline. -/
def MergeConflict.resolve (manual : Resolver) (members : List Member)
    (fields : List Field) : List Member × Bool :=
  MergeConflict.resolveWith (resolverPipeline manual) members fields

end IBS

/-- C4: `MergeConflict.resolve` tries exactly the three resolvers in
the fixed order missing-field, zip-code, manual, stopping at the first
success; it returns false exactly when all three declined. -/
theorem c4_resolver_chain (manual : IBS.Resolver) (members : List IBS.Member)
    (fields : List Field) :
    IBS.MergeConflict.resolve manual members fields =
      (if (IBS.MissingFieldResolver.resolve members fields).2 then
        IBS.MissingFieldResolver.resolve members fields
      else if (IBS.ZipCodeResolver.resolve
          (IBS.MissingFieldResolver.resolve members fields).1 fields).2 then
        IBS.ZipCodeResolver.resolve
          (IBS.MissingFieldResolver.resolve members fields).1 fields
      else manual (IBS.ZipCodeResolver.resolve
          (IBS.MissingFieldResolver.resolve members fields).1 fields).1 fields) ∧
      ((IBS.MergeConflict.resolve manual members fields).2 = false ↔
        (IBS.MissingFieldResolver.resolve members fields).2 = false ∧
          (IBS.ZipCodeResolver.resolve
            (IBS.MissingFieldResolver.resolve members fields).1 fields).2 = false ∧
          (manual (IBS.ZipCodeResolver.resolve
            (IBS.MissingFieldResolver.resolve members fields).1 fields).1 fields).2 =
            false) := by
  have step : ∀ (r : IBS.Resolver) (rs : List IBS.Resolver) (ms : List IBS.Member),
      IBS.MergeConflict.resolveWith (r :: rs) ms fields =
        if (r ms fields).2 then r ms fields
        else IBS.MergeConflict.resolveWith rs (r ms fields).1 fields :=
    fun _ _ _ => rfl
  unfold IBS.MergeConflict.resolve IBS.resolverPipeline
  rw [step]
  cases h1 : (IBS.MissingFieldResolver.resolve members fields).2 with
  | true => simp [h1]
  | false =>
      simp only [h1, Bool.false_eq_true, if_false]
      rw [step]
      cases h2 : (IBS.ZipCodeResolver.resolve
          (IBS.MissingFieldResolver.resolve members fields).1 fields).2 with
      | true => simp [h2]
      | false =>
          simp only [h2, Bool.false_eq_true, if_false]
          rw [step]
          cases h3 : (manual (IBS.ZipCodeResolver.resolve
              (IBS.MissingFieldResolver.resolve members fields).1 fields).1 fields).2 with
          | true => simp [h3]
          | false =>
              simp only [h3, Bool.false_eq_true, if_false]
              constructor
              · show ((manual _ fields).1, false) = manual _ fields
                rw [← h3]
              · simp [IBS.MergeConflict.resolveWith]

end IBSync
